import Mathlib

/-! # Brute-force password search (`main.go`)

A shallow embedding of the search engine of `main.go`:

* `generatePassword`: the index-to-candidate decoder (mixed radix, base `len(charset)`),
* `bruteForceCrackPassword`: one worker scanning an inclusive index range,
* the range computation and the await/teardown sequence of `measureCrackTime`.

Go's `int` is the 64-bit signed integer.  It is embedded as `Int`; the only place
where an increment can leave the 64-bit range is the worker's `i++`, which is
written with an explicit two's-complement wrap (`wrapInt`).  Indexing `charset`
outside `0 ≤ j < len(charset)` is a run-time panic in Go and `none` here.
Go strings over `charset` are ASCII, so bytes and characters coincide.
-/

namespace Crack

/-! ## Data model -/

/-- The `charset` variable: 94 printable ASCII symbols. -/
def charset : String :=
  "abcdefghijklmnopqrstuvwxyzABCDEFGHIJKLMNOPQRSTUVWXYZ0123456789!\"#$%&'()*+,-./:;<=>?@[\\]^_`{|}~"

/-- The value `base := len(charset)` computed in `generatePassword`. -/
def base : Int := (charset.length : Int)

/-- Largest value of Go's `int` (64 bits). -/
def maxInt : Int := 2 ^ 63 - 1

/-- Smallest value of Go's `int` (64 bits). -/
def minInt : Int := -(2 ^ 63)

/-- Two's-complement wrap of an integer into the range of Go's `int`. -/
def wrapInt (x : Int) : Int := (x + 2 ^ 63) % 2 ^ 64 - 2 ^ 63

/-- The indexing expression `charset[j]`; `none` is Go's out-of-range panic. -/
def charsetAt (j : Int) : Option Char :=
  if 0 ≤ j ∧ j < base then charset.data[j.toNat]? else none

/-! ## `generatePassword` -/

/-- The loop of `generatePassword` with `n` iterations left: write
`charset[index % base]`, then `index /= base`.  Go's `%` and `/` truncate
toward zero (`Int.tmod`, `Int.tdiv`). -/
def generatePasswordLoop : Nat → Int → Option (List Char)
  | 0, _ => some []
  | n + 1, index =>
    match charsetAt (Int.tmod index base) with
    | none => none
    | some c =>
      match generatePasswordLoop n (Int.tdiv index base) with
      | none => none
      | some rest => some (c :: rest)

/-- The function `generatePassword(index, length)`: the loop body runs `length`
times (not at all when `length ≤ 0`); `none` when an iteration panics. -/
def generatePassword (index length : Int) : Option String :=
  (generatePasswordLoop length.toNat index).map String.mk

/-- The function `generateRandomPassword(length)`; `rand k` is the value returned
by the `k`-th call of `rand.Intn(len(charset))`. -/
def generateRandomPasswordLoop (rand : Nat → Int) : Nat → Nat → Option (List Char)
  | 0, _ => some []
  | n + 1, k =>
    match charsetAt (rand k) with
    | none => none
    | some c =>
      match generateRandomPasswordLoop rand n (k + 1) with
      | none => none
      | some rest => some (c :: rest)

/-- The function `generateRandomPassword(length)` over the random draws `rand`. -/
def generateRandomPassword (rand : Nat → Int) (length : Int) : Option String :=
  (generateRandomPasswordLoop rand length.toNat 0).map String.mk

/-- Position of a symbol in `charset` (`len(charset)` when it is absent). -/
def symbolPos (c : Char) : Int := (charset.data.indexOf c : Int)

/-- Re-encoding of a symbol sequence, starting at position `i`: the sum over the
positions of (position of the symbol in `charset`) times `base ^ position`. -/
def reencodeFrom (i : Nat) : List Char → Int
  | [] => 0
  | c :: cs => symbolPos c * base ^ i + reencodeFrom (i + 1) cs

/-- Re-encoding of a string back to an index, least significant symbol first. -/
def reencode (s : String) : Int := reencodeFrom 0 s.data

/-! ## `bruteForceCrackPassword` -/

/-- How a run of a worker ends: it returned (having decoded the indices `visited`,
in that order, and having sent `published` on the channel, if anything), it
panicked inside `generatePassword`, or it is still running when the step budget
of the model is exhausted. -/
inductive Outcome where
  | returned (visited : List Int) (published : Option String)
  | panicked (visited : List Int)
  | running (visited : List Int)
  deriving DecidableEq

/-- Record that index `i` was decoded before the rest of the run. -/
def Outcome.visit (i : Int) : Outcome → Outcome
  | .returned v p => .returned (i :: v) p
  | .panicked v => .panicked (i :: v)
  | .running v => .running (i :: v)

/-- The indices a run decoded, in order. -/
def Outcome.visited : Outcome → List Int
  | .returned v _ => v
  | .panicked v => v
  | .running v => v

/-- The value a run sent on the channel, if any. -/
def Outcome.published : Outcome → Option String
  | .returned _ p => p
  | .panicked _ => none
  | .running _ => none

/-- The `for i := startIndex; i <= endIndex; i++` loop of `bruteForceCrackPassword`
from loop variable `i`, with `fuel` iterations allowed.  `ctxDone k` tells whether
`ctx.Done()` is ready when the `select` of iteration number `k` runs. -/
def bruteForceLoop (ctxDone : Nat → Bool) (target : String) (length endIndex : Int) :
    Nat → Nat → Int → Outcome
  | 0, _, _ => .running []
  | fuel + 1, k, i =>
    if i ≤ endIndex then
      if ctxDone k then .returned [] none
      else
        match generatePassword i length with
        | none => .panicked [i]
        | some password =>
          if password = target then .returned [i] (some password)
          else
            (bruteForceLoop ctxDone target length endIndex fuel (k + 1)
              (wrapInt (i + 1))).visit i
    else .returned [] none

/-- The function `bruteForceCrackPassword(ctx, target, length, startIndex, endIndex, ch, wg)`. -/
def bruteForceCrackPassword (ctxDone : Nat → Bool) (target : String)
    (length startIndex endIndex : Int) (fuel : Nat) : Outcome :=
  bruteForceLoop ctxDone target length endIndex fuel 0 startIndex

/-- A context that is never cancelled. -/
def neverDone : Nat → Bool := fun _ => false

/-- The inclusive list of integers `a, a+1, ..., b` (empty when `b < a`). -/
def intRange (a b : Int) : List Int :=
  (List.range (b + 1 - a).toNat).map (fun (k : Nat) => a + (k : Int))

/-! ## `measureCrackTime` -/

/-- The constant `workerCount := 1000` of `measureCrackTime`. -/
def workerCount : Int := 1000

/-- The value `int(math.Pow(float64(len(charset)), float64(length)))`.  The
floating-point power is exact and fits Go's `int` for `0 ≤ length ≤ 9`
(`94 ^ 9 = 2 ^ 9 * 47 ^ 9` with `47 ^ 9 < 2 ^ 53`, and `94 ^ 9 < 2 ^ 63`); a
negative `length` gives a power below one, truncated to `0`. -/
def totalCombinations (length : Int) : Int :=
  if length < 0 then 0 else base ^ length.toNat

/-- The pair `(startIndex, endIndex)` computed by iteration `i` of the dispatch
loop of `measureCrackTime`.  Go's `/` truncates (`Int.tdiv`).  For
`0 ≤ totalCombinations ≤ MaxInt64`, `workerCount ≥ 1` and `0 ≤ i < workerCount` every
value computed here lies in `[-1, totalCombinations]` (`workerRange_bounds`), so no
operation leaves the range of `int`. -/
def workerRange (totalCombinations workerCount i : Int) : Int × Int :=
  let rangeSize := Int.tdiv totalCombinations workerCount
  let startIndex := i * rangeSize
  let endIndex := startIndex + rangeSize - 1
  if i = workerCount - 1 then (startIndex, totalCombinations - 1)
  else (startIndex, endIndex)

/-- The ranges handed to the goroutines launched by the dispatch loop
`for i := 0; i < workerCount; i++`, in launch order. -/
def dispatch (totalCombinations workerCount : Int) : List (Int × Int) :=
  (List.range workerCount.toNat).map
    (fun (i : Nat) => workerRange totalCombinations workerCount (i : Int))

/-- Membership of an index in an inclusive range `(startIndex, endIndex)`. -/
def inRange (r : Int × Int) (x : Int) : Prop := r.1 ≤ x ∧ x ≤ r.2

/-- Which case of the coordinator's `select` fires. -/
inductive Await where
  | received (password : String)
  | timeout
  deriving DecidableEq

/-- The coordinator's actions that matter for teardown. -/
inductive Step where
  | spawn (startIndex endIndex : Int)
  | cancel
  | printNotFound
  | wait
  deriving DecidableEq

/-- The body of `measureCrackTime` after the target was drawn, for a given space
size and worker count: the dispatch loop, the `select`, `wg.Wait()`, and the
deferred `cancel()` that runs when the function returns.  The result is the
sequence of actions and the returned `foundPassword`. -/
def coordinate (totalCombinations workerCount : Int) (await : Await) :
    List Step × String :=
  let spawns := (dispatch totalCombinations workerCount).map
    (fun r => Step.spawn r.1 r.2)
  match await with
  | .received password => (spawns ++ [Step.cancel, Step.wait, Step.cancel], password)
  | .timeout => (spawns ++ [Step.printNotFound, Step.wait, Step.cancel], "Not found")

/-- The function `measureCrackTime(length)` for a given outcome of the `select`. -/
def measureCrackTime (length : Int) (await : Await) : List Step × String :=
  coordinate (totalCombinations length) workerCount await

/-- Number of goroutines launched. -/
def spawnCount : List Step → Nat
  | [] => 0
  | Step.spawn _ _ :: rest => spawnCount rest + 1
  | _ :: rest => spawnCount rest

/-- Number of `cancel()` calls that precede the first `wg.Wait()`. -/
def cancelsBeforeWait : List Step → Nat
  | [] => 0
  | Step.wait :: _ => 0
  | Step.cancel :: rest => cancelsBeforeWait rest + 1
  | _ :: rest => cancelsBeforeWait rest

/-! ## Facts about `charset` -/

theorem base_eq : base = 94 := by decide

theorem charset_length : charset.data.length = 94 := by decide

set_option maxRecDepth 100000 in
theorem charset_nodup : charset.data.Nodup := by decide

theorem space_not_mem_charset : ' ' ∉ charset.data := by decide

/-- An index inside `0 ≤ j < 94` selects a symbol of `charset`, at position `j`. -/
theorem charsetAt_of_lt (j : Int) (h0 : 0 ≤ j) (h1 : j < 94) :
    ∃ c, charsetAt j = some c ∧ c ∈ charset.data ∧ symbolPos c = j := by
  have hlt : j.toNat < charset.data.length := by rw [charset_length]; omega
  refine ⟨charset.data[j.toNat], ?_, List.getElem_mem _, ?_⟩
  · unfold charsetAt
    rw [if_pos ⟨h0, by rw [base_eq]; exact h1⟩]
    exact List.getElem?_eq_getElem hlt
  · unfold symbolPos
    rw [List.indexOf_getElem charset_nodup]
    omega

/-- Indexing `charset` succeeds only inside `0 ≤ j < 94`. -/
theorem charsetAt_some (j : Int) (c : Char) (h : charsetAt j = some c) :
    0 ≤ j ∧ j < 94 ∧ c ∈ charset.data ∧ symbolPos c = j := by
  unfold charsetAt at h
  by_cases hj : 0 ≤ j ∧ j < base
  · have h1 : j < 94 := by have := hj.2; rwa [base_eq] at this
    obtain ⟨c', hc', hmem, hpos⟩ := charsetAt_of_lt j hj.1 h1
    unfold charsetAt at hc'
    rw [if_pos hj] at h hc'
    have : c' = c := by rw [hc'] at h; exact Option.some.inj h
    subst this
    exact ⟨hj.1, h1, hmem, hpos⟩
  · rw [if_neg hj] at h
    exact absurd h (by simp)

/-- A symbol of `charset` sits at its own position. -/
theorem charsetAt_symbolPos (c : Char) (h : c ∈ charset.data) :
    0 ≤ symbolPos c ∧ symbolPos c < 94 ∧ charsetAt (symbolPos c) = some c := by
  have hlt : charset.data.indexOf c < charset.data.length := List.indexOf_lt_length.mpr h
  have hlt94 : charset.data.indexOf c < 94 := by rw [charset_length] at hlt; exact hlt
  have h0 : (0 : Int) ≤ symbolPos c := by unfold symbolPos; omega
  have h1 : symbolPos c < 94 := by unfold symbolPos; omega
  refine ⟨h0, h1, ?_⟩
  unfold charsetAt
  rw [if_pos ⟨h0, by rw [base_eq]; exact h1⟩]
  have : (symbolPos c).toNat = charset.data.indexOf c := by unfold symbolPos; omega
  rw [this]
  exact List.getElem?_indexOf h

/-! ## Facts about `generatePassword` -/

/-- Dividing by 94 and then by `94 ^ i` is dividing by `94 ^ (i + 1)`. -/
theorem ediv_ediv_pow (index : Int) (i : Nat) (h : 0 ≤ index) :
    index / 94 / 94 ^ i = index / 94 ^ (i + 1) := by
  obtain ⟨m, rfl⟩ := Int.eq_ofNat_of_zero_le h
  have : m / 94 / 94 ^ i = m / 94 ^ (i + 1) := by
    rw [Nat.div_div_eq_div_mul, pow_succ']
  exact_mod_cast this

theorem generatePasswordLoop_zero (index : Int) : generatePasswordLoop 0 index = some [] := rfl

/-- One iteration of the loop on a non-negative index. -/
theorem generatePasswordLoop_succ (n : Nat) (index : Int) (h : 0 ≤ index) :
    ∃ c, charsetAt (index % 94) = some c ∧ c ∈ charset.data ∧ symbolPos c = index % 94 ∧
      generatePasswordLoop (n + 1) index =
        (generatePasswordLoop n (index / 94)).map (fun rest => c :: rest) := by
  obtain ⟨c, hc, hmem, hpos⟩ := charsetAt_of_lt (index % 94) (by omega) (by omega)
  refine ⟨c, hc, hmem, hpos, ?_⟩
  have hm : Int.tmod index base = index % 94 := by
    rw [base_eq]; exact Int.tmod_eq_emod h (by norm_num)
  have hd : Int.tdiv index base = index / 94 := by
    rw [base_eq]; exact Int.tdiv_eq_ediv h (by norm_num)
  rw [generatePasswordLoop, hm, hd, hc]
  cases generatePasswordLoop n (index / 94) <;> rfl

/-- Whatever the index, a completed loop wrote `n` symbols, all from `charset`. -/
theorem generatePasswordLoop_mem (n : Nat) :
    ∀ (index : Int) (l : List Char), generatePasswordLoop n index = some l →
      l.length = n ∧ ∀ c ∈ l, c ∈ charset.data := by
  induction n with
  | zero =>
    intro index l h
    rw [generatePasswordLoop_zero] at h
    cases h
    simp
  | succ n ih =>
    intro index l h
    rw [generatePasswordLoop] at h
    cases hc : charsetAt (Int.tmod index base) with
    | none => rw [hc] at h; cases h
    | some c =>
      rw [hc] at h
      cases hr : generatePasswordLoop n (Int.tdiv index base) with
      | none => rw [hr] at h; cases h
      | some rest =>
        rw [hr] at h
        cases h
        obtain ⟨hl, hm⟩ := ih _ _ hr
        refine ⟨by simp [hl], ?_⟩
        intro d hd
        rcases List.mem_cons.mp hd with rfl | hd
        · exact (charsetAt_some _ _ hc).2.2.1
        · exact hm d hd

/-- On a non-negative index the loop never panics and writes the base-94 digits,
least significant first. -/
theorem generatePasswordLoop_digits (n : Nat) :
    ∀ index : Int, 0 ≤ index →
      ∃ l, generatePasswordLoop n index = some l ∧ l.length = n ∧
        ∀ i : Nat, i < n → l[i]? = charsetAt (index / 94 ^ i % 94) ∧ l[i]? ≠ none := by
  induction n with
  | zero =>
    intro index _
    exact ⟨[], rfl, rfl, fun i hi => absurd hi (Nat.not_lt_zero i)⟩
  | succ n ih =>
    intro index h
    obtain ⟨c, hc, -, -, hstep⟩ := generatePasswordLoop_succ n index h
    obtain ⟨rest, hrest, hlen, hdig⟩ := ih (index / 94) (by omega)
    refine ⟨c :: rest, by rw [hstep, hrest]; rfl, by simp [hlen], ?_⟩
    intro i hi
    cases i with
    | zero => simp [hc]
    | succ i =>
      have := hdig i (by omega)
      have hdiv : index / 94 / 94 ^ i = index / 94 ^ (i + 1) := ediv_ediv_pow index i h
      rw [hdiv] at this
      simpa using this

theorem reencodeFrom_succ (l : List Char) :
    ∀ i : Nat, reencodeFrom (i + 1) l = 94 * reencodeFrom i l := by
  induction l with
  | nil => intro i; simp [reencodeFrom]
  | cons c cs ih =>
    intro i
    simp only [reencodeFrom, ih (i + 1), base_eq]
    ring

theorem reencodeFrom_cons (c : Char) (cs : List Char) :
    reencodeFrom 0 (c :: cs) = symbolPos c + 94 * reencodeFrom 0 cs := by
  simp [reencodeFrom, reencodeFrom_succ]

/-- Re-encoding what the loop wrote for an index below `94 ^ n` gives the index back. -/
theorem generatePasswordLoop_roundtrip (n : Nat) :
    ∀ index : Int, 0 ≤ index → index < 94 ^ n →
      ∀ l, generatePasswordLoop n index = some l → reencodeFrom 0 l = index := by
  induction n with
  | zero =>
    intro index h0 h1 l hl
    rw [generatePasswordLoop_zero] at hl
    cases hl
    simp only [pow_zero] at h1
    simp only [reencodeFrom]
    omega
  | succ n ih =>
    intro index h0 h1 l hl
    obtain ⟨c, -, -, hpos, hstep⟩ := generatePasswordLoop_succ n index h0
    rw [hstep] at hl
    cases hr : generatePasswordLoop n (index / 94) with
    | none => rw [hr] at hl; cases hl
    | some rest =>
      rw [hr] at hl
      cases hl
      have hlt : index / 94 < 94 ^ n := by
        apply Int.ediv_lt_of_lt_mul (by norm_num)
        rw [pow_succ] at h1
        exact h1
      have := ih (index / 94) (by omega) hlt rest hr
      rw [reencodeFrom_cons, hpos, this]
      omega

/-- Every sequence of `charset` symbols is written by the loop at its re-encoding. -/
theorem generatePasswordLoop_reencode (l : List Char) (h : ∀ c ∈ l, c ∈ charset.data) :
    0 ≤ reencodeFrom 0 l ∧ reencodeFrom 0 l < 94 ^ l.length ∧
      generatePasswordLoop l.length (reencodeFrom 0 l) = some l := by
  induction l with
  | nil => simp [reencodeFrom, generatePasswordLoop]
  | cons c cs ih =>
    obtain ⟨e0, e1, eg⟩ := ih (fun d hd => h d (List.mem_cons_of_mem _ hd))
    obtain ⟨p0, p1, pc⟩ := charsetAt_symbolPos c (h c (List.mem_cons_self _ _))
    have hnn : 0 ≤ reencodeFrom 0 (c :: cs) := by rw [reencodeFrom_cons]; omega
    have hmod : reencodeFrom 0 (c :: cs) % 94 = symbolPos c := by
      rw [reencodeFrom_cons]; omega
    have hdiv : reencodeFrom 0 (c :: cs) / 94 = reencodeFrom 0 cs := by
      rw [reencodeFrom_cons]; omega
    refine ⟨hnn, ?_, ?_⟩
    · rw [reencodeFrom_cons, List.length_cons, pow_succ]
      omega
    · obtain ⟨c', hc', -, -, hstep⟩ := generatePasswordLoop_succ cs.length _ hnn
      rw [hmod, pc] at hc'
      cases hc'
      rw [List.length_cons, hstep, hdiv, eg]
      rfl

/-- On a non-negative index `generatePassword` returns a string. -/
theorem generatePassword_some (index length : Int) (hi : 0 ≤ index) :
    ∃ l, generatePasswordLoop length.toNat index = some l ∧
      generatePassword index length = some (String.mk l) := by
  obtain ⟨l, hl, -, -⟩ := generatePasswordLoop_digits length.toNat index hi
  exact ⟨l, hl, by unfold generatePassword; rw [hl]; rfl⟩

/-- What `generatePassword` returns was written by its loop. -/
theorem generatePassword_eq_some (index length : Int) (s : String)
    (h : generatePassword index length = some s) :
    generatePasswordLoop length.toNat index = some s.data := by
  unfold generatePassword at h
  cases hl : generatePasswordLoop length.toNat index with
  | none => rw [hl] at h; cases h
  | some l => rw [hl] at h; cases h; rfl

/-- A returned password has `length` symbols, all from `charset`. -/
theorem generatePassword_mem (index length : Int) (s : String)
    (h : generatePassword index length = some s) :
    s.data.length = length.toNat ∧ ∀ c ∈ s.data, c ∈ charset.data :=
  generatePasswordLoop_mem _ _ _ (generatePassword_eq_some _ _ _ h)

/-! ## The decoder: claims C7, C1, C10 -/

/-- C7: for every index >= 0 and length >= 0, `generatePassword` returns (it never
indexes `charset` out of bounds) a string of exactly `length` symbols, all members of
`charset`, whose symbol at every position `i < length` is
`charset[(index / base^i) mod base]`, the least significant digit first. -/
theorem generatePassword_digits (index length : Int) (hi : 0 ≤ index) (hl : 0 ≤ length) :
    ∃ s : String, generatePassword index length = some s ∧
      (s.data.length : Int) = length ∧
      (∀ c ∈ s.data, c ∈ charset.data) ∧
      ∀ i : Nat, (i : Int) < length →
        (0 ≤ index / base ^ i % base ∧ index / base ^ i % base < base) ∧
        s.data[i]? = charsetAt (index / base ^ i % base) ∧ s.data[i]? ≠ none := by
  obtain ⟨l, hloop, hlen, hdig⟩ := generatePasswordLoop_digits length.toNat index hi
  have hs : generatePassword index length = some (String.mk l) := by
    unfold generatePassword; rw [hloop]; rfl
  refine ⟨String.mk l, hs, ?_, (generatePassword_mem _ _ _ hs).2, ?_⟩
  · show (l.length : Int) = length
    rw [hlen]; omega
  · intro i hlt
    rw [base_eq]
    exact ⟨by omega, hdig i (by omega)⟩

/-- C7 at index 100 and length 2. -/
theorem generatePassword_digits_witness :
    ∃ s : String, generatePassword 100 2 = some s ∧
      (s.data.length : Int) = 2 ∧
      (∀ c ∈ s.data, c ∈ charset.data) ∧
      ∀ i : Nat, (i : Int) < 2 →
        (0 ≤ (100 : Int) / base ^ i % base ∧ (100 : Int) / base ^ i % base < base) ∧
        s.data[i]? = charsetAt (100 / base ^ i % base) ∧ s.data[i]? ≠ none :=
  generatePassword_digits 100 2 (by decide) (by decide)

/-- C1: for every length (in particular every length >= 1) and every index in
`[0, base^length)`, re-encoding the string `generatePassword(index, length)` (sum of
symbol position times `base^i`) yields `index`; so a different index of that interval
never gives the same string. -/
theorem generatePassword_roundtrip (index length : Int)
    (h0 : 0 ≤ index) (h1 : index < base ^ length.toNat) :
    (∃ s : String, generatePassword index length = some s ∧ reencode s = index) ∧
      ∀ index2 : Int, 0 ≤ index2 → index2 < base ^ length.toNat → index2 ≠ index →
        generatePassword index2 length ≠ generatePassword index length := by
  rw [base_eq] at h1
  obtain ⟨l, hloop, hs⟩ := generatePassword_some index length h0
  have hrt := generatePasswordLoop_roundtrip length.toNat index h0 h1 l hloop
  refine ⟨⟨String.mk l, hs, hrt⟩, ?_⟩
  intro index2 g0 g1 hne heq
  rw [base_eq] at g1
  rw [hs] at heq
  have hloop2 := generatePassword_eq_some _ _ _ heq
  have := generatePasswordLoop_roundtrip length.toNat index2 g0 g1 _ hloop2
  exact hne (this.symm.trans hrt)

/-- C1 at index 5000 and length 2. -/
theorem generatePassword_roundtrip_witness :
    (∃ s : String, generatePassword 5000 2 = some s ∧ reencode s = 5000) ∧
      ∀ index2 : Int, 0 ≤ index2 → index2 < base ^ (2 : Int).toNat → index2 ≠ 5000 →
        generatePassword index2 2 ≠ generatePassword 5000 2 :=
  generatePassword_roundtrip 5000 2 (by decide) (by decide)

/-- C10: for every index >= 0 and every length, `generatePassword(index, length)` is a
string different from "Not found", because the sentinel contains a space and `charset`
does not; so `measureCrackTime` returns "Not found" on the timeout branch and never
when it received a password produced by `generatePassword`. -/
theorem generatePassword_ne_notFound (index length : Int) (hi : 0 ≤ index) :
    (∃ s : String, generatePassword index length = some s ∧ s ≠ "Not found") ∧
      (' ' ∈ "Not found".data ∧ ' ' ∉ charset.data) ∧
      (measureCrackTime length Await.timeout).2 = "Not found" ∧
      ∀ s : String, generatePassword index length = some s →
        (measureCrackTime length (Await.received s)).2 ≠ "Not found" := by
  have key : ∀ s : String, generatePassword index length = some s → s ≠ "Not found" := by
    intro s hs heq
    have hmem := (generatePassword_mem _ _ _ hs).2 ' ' (by rw [heq]; decide)
    exact space_not_mem_charset hmem
  obtain ⟨l, -, hs⟩ := generatePassword_some index length hi
  refine ⟨⟨String.mk l, hs, key _ hs⟩, ⟨by decide, space_not_mem_charset⟩, rfl, ?_⟩
  intro s hs
  exact key s hs

/-- C10 at index 7 and length 9 (the length of the sentinel). -/
theorem generatePassword_ne_notFound_witness :
    (∃ s : String, generatePassword 7 9 = some s ∧ s ≠ "Not found") ∧
      (' ' ∈ "Not found".data ∧ ' ' ∉ charset.data) ∧
      (measureCrackTime 9 Await.timeout).2 = "Not found" ∧
      ∀ s : String, generatePassword 7 9 = some s →
        (measureCrackTime 9 (Await.received s)).2 ≠ "Not found" :=
  generatePassword_ne_notFound 7 9 (by decide)

/-! ## Facts about `bruteForceCrackPassword` -/

theorem wrapInt_succ (i : Int) (h0 : minInt ≤ i) (h1 : i < maxInt) : wrapInt (i + 1) = i + 1 := by
  unfold minInt at h0
  unfold maxInt at h1
  unfold wrapInt
  omega

theorem intRange_empty (a b : Int) (h : b < a) : intRange a b = [] := by
  unfold intRange
  have : (b + 1 - a).toNat = 0 := by omega
  rw [this]
  rfl

theorem intRange_cons (a b : Int) (h : a ≤ b) : intRange a b = a :: intRange (a + 1) b := by
  unfold intRange
  have : (b + 1 - a).toNat = (b + 1 - (a + 1)).toNat + 1 := by omega
  rw [this, List.range_succ_eq_map, List.map_cons, List.map_map]
  congr 1
  · simp
  · apply List.map_congr_left
    intro k _
    simp only [Function.comp_apply]
    push_cast
    ring

theorem intRange_self (a : Int) : intRange a a = [a] := by
  rw [intRange_cons a a (le_refl a), intRange_empty (a + 1) a (by omega)]

theorem mem_intRange (a b j : Int) : j ∈ intRange a b ↔ a ≤ j ∧ j ≤ b := by
  unfold intRange
  simp only [List.mem_map, List.mem_range]
  constructor
  · rintro ⟨k, hk, rfl⟩
    omega
  · intro h
    exact ⟨(j - a).toNat, by omega, by omega⟩

theorem Outcome.visited_visit (i : Int) (o : Outcome) : (o.visit i).visited = i :: o.visited := by
  cases o <;> rfl

theorem Outcome.published_visit (i : Int) (o : Outcome) : (o.visit i).published = o.published := by
  cases o <;> rfl

/-- Whatever the cancellation and the step budget, a worker whose range ends below
the largest `int` decodes only indices of its range, and what it publishes is the
target, found at an index of its range. -/
theorem bruteForceLoop_sound (ctxDone : Nat → Bool) (target : String) (length endIndex : Int)
    (he : endIndex < maxInt) :
    ∀ (fuel k : Nat) (i : Int), minInt ≤ i →
      (∀ j ∈ (bruteForceLoop ctxDone target length endIndex fuel k i).visited,
        i ≤ j ∧ j ≤ endIndex) ∧
      ∀ p, (bruteForceLoop ctxDone target length endIndex fuel k i).published = some p →
        p = target ∧ ∃ j, i ≤ j ∧ j ≤ endIndex ∧ generatePassword j length = some target := by
  intro fuel
  induction fuel with
  | zero =>
    intro k i _
    simp [bruteForceLoop, Outcome.visited, Outcome.published]
  | succ fuel ih =>
    intro k i hi
    rw [bruteForceLoop]
    by_cases hle : i ≤ endIndex
    · rw [if_pos hle]
      cases hd : ctxDone k with
      | true => simp [Outcome.visited, Outcome.published]
      | false =>
        simp only [Bool.false_eq_true, if_false]
        cases hg : generatePassword i length with
        | none => simp [Outcome.visited, Outcome.published, hle]
        | some password =>
          simp only
          by_cases hp : password = target
          · rw [if_pos hp]
            subst hp
            simp only [Outcome.visited, Outcome.published, List.mem_singleton]
            refine ⟨fun j hj => by subst hj; exact ⟨le_refl _, hle⟩, ?_⟩
            intro p hp
            cases hp
            exact ⟨rfl, i, le_refl _, hle, hg⟩
          · rw [if_neg hp, wrapInt_succ i hi (by omega)]
            obtain ⟨ihv, ihp⟩ := ih (k + 1) (i + 1) (by omega)
            rw [Outcome.visited_visit, Outcome.published_visit]
            constructor
            · intro j hj
              rcases List.mem_cons.mp hj with rfl | hj
              · exact ⟨le_refl _, hle⟩
              · have := ihv j hj
                omega
            · intro p hp
              obtain ⟨h1, j, hj1, hj2, hj3⟩ := ihp p hp
              exact ⟨h1, j, by omega, hj2, hj3⟩
    · rw [if_neg hle]
      simp [Outcome.visited, Outcome.published]

/-- With cancellation never signalled, a worker started at a non-negative index (or
past the end of its range) with enough step budget returns: either at the smallest
matching index, having published the target, or at the end of the range, having
published nothing. -/
theorem bruteForceLoop_scan (target : String) (length endIndex : Int) (he : endIndex < maxInt) :
    ∀ (fuel k : Nat) (i : Int), (endIndex < i ∨ 0 ≤ i) → (endIndex + 1 - i).toNat < fuel →
      (∃ m, i ≤ m ∧ m ≤ endIndex ∧ generatePassword m length = some target ∧
          (∀ j, i ≤ j → j < m → generatePassword j length ≠ some target) ∧
          bruteForceLoop neverDone target length endIndex fuel k i =
            Outcome.returned (intRange i m) (some target)) ∨
        ((∀ j, i ≤ j → j ≤ endIndex → generatePassword j length ≠ some target) ∧
          bruteForceLoop neverDone target length endIndex fuel k i =
            Outcome.returned (intRange i endIndex) none) := by
  intro fuel
  induction fuel with
  | zero => intro k i _ hf; omega
  | succ fuel ih =>
    intro k i hi hf
    rw [bruteForceLoop]
    by_cases hle : i ≤ endIndex
    · have h0 : 0 ≤ i := by omega
      rw [if_pos hle]
      simp only [neverDone, Bool.false_eq_true, if_false]
      obtain ⟨l, -, hg⟩ := generatePassword_some i length h0
      rw [hg]
      simp only
      by_cases hp : String.mk l = target
      · left
        rw [if_pos hp]
        subst hp
        exact ⟨i, le_refl _, hle, hg, fun j h1 h2 => by omega, by rw [intRange_self]⟩
      · rw [if_neg hp, wrapInt_succ i (by unfold minInt; omega) (by omega)]
        have hi_ne : generatePassword i length ≠ some target := by
          rw [hg]; intro h; exact hp (Option.some.inj h)
        rcases ih (k + 1) (i + 1) (by omega) (by omega) with
          ⟨m, hm1, hm2, hm3, hm4, hrun⟩ | ⟨hnone, hrun⟩
        · left
          refine ⟨m, by omega, hm2, hm3, ?_, ?_⟩
          · intro j h1 h2
            by_cases hj : j = i
            · subst hj; exact hi_ne
            · exact hm4 j (by omega) h2
          · rw [hrun, intRange_cons i m (by omega)]
            rfl
        · right
          refine ⟨?_, ?_⟩
          · intro j h1 h2
            by_cases hj : j = i
            · subst hj; exact hi_ne
            · exact hnone j (by omega) h2
          · rw [hrun, intRange_cons i endIndex hle]
            rfl
    · right
      rw [if_neg hle]
      exact ⟨fun j h1 h2 => by omega, by rw [intRange_empty i endIndex (by omega)]⟩

/-! ## The worker: claim C4 -/

/-- A worker started at index `-1` panics at once, whatever its step budget. -/
theorem bruteForceLoop_negative_start (fuel : Nat) :
    bruteForceCrackPassword neverDone "a" 1 (-1) 0 (fuel + 1) = Outcome.panicked [-1] := by
  have hg : generatePassword (-1) 1 = none := by decide
  simp [bruteForceCrackPassword, bruteForceLoop, neverDone, hg]

/-- A worker whose range ends at the largest `int` wraps its loop variable to the
smallest `int` and panics there. -/
theorem bruteForceLoop_maxInt_end (fuel : Nat) :
    bruteForceCrackPassword neverDone "a" 1 maxInt maxInt (fuel + 2) =
      Outcome.panicked [maxInt, minInt] := by
  have hg1 : generatePassword maxInt 1 = some "J" := by decide
  have hw : wrapInt (maxInt + 1) = minInt := by decide
  have hle : minInt ≤ maxInt := by decide
  have hg2 : generatePassword minInt 1 = none := by decide
  have hne : ("J" : String) ≠ "a" := by decide
  simp [bruteForceCrackPassword, bruteForceLoop, neverDone, hg1, hw, hle, hg2, hne,
    Outcome.visit]

/-- C4 as stated fails at two kinds of range.  For the range `[-1, 0]`, length 1 and
target "a", index 0 matches, yet the worker panics on `charset[-1]` while decoding
index -1: it never returns and publishes nothing, whatever its step budget.  For the
range `[MaxInt64, MaxInt64]`, length 1 and target "a", no index matches, yet the
worker does not return: after `i++` wraps it panics decoding `MinInt64`. -/
theorem bruteForceCrackPassword_scan_counterexample :
    (generatePassword 0 1 = some "a" ∧
      ∀ fuel : Nat,
        (bruteForceCrackPassword neverDone "a" 1 (-1) 0 fuel).published = none ∧
        ∀ v p, bruteForceCrackPassword neverDone "a" 1 (-1) 0 fuel ≠ Outcome.returned v p) ∧
    (generatePassword maxInt 1 ≠ some "a" ∧
      ∀ (fuel : Nat) v p,
        bruteForceCrackPassword neverDone "a" 1 maxInt maxInt fuel ≠ Outcome.returned v p) := by
  refine ⟨⟨by decide, ?_⟩, by decide, ?_⟩
  · intro fuel
    cases fuel with
    | zero => exact ⟨rfl, fun v p h => by cases h⟩
    | succ fuel =>
      rw [bruteForceLoop_negative_start]
      exact ⟨rfl, fun v p h => by cases h⟩
  · intro fuel v p
    match fuel with
    | 0 => intro h; cases h
    | 1 =>
      have hg1 : generatePassword maxInt 1 = some "J" := by decide
      have hne : ("J" : String) ≠ "a" := by decide
      simp [bruteForceCrackPassword, bruteForceLoop, neverDone, hg1, hne, Outcome.visit]
    | fuel + 2 =>
      rw [bruteForceLoop_maxInt_end]
      intro h; cases h

/-- C4 (amended): with cancellation never signalled, for every length and target and
every range that is empty (`endIndex < startIndex`) or has `0 <= startIndex` and
`endIndex < MaxInt64`, a worker given more steps than the range has indices returns
after decoding the indices in increasing order from `startIndex`: either there is a
smallest matching index `m` in the range, it decoded exactly `startIndex..m` and
published the target; or no index of the range matches, it decoded exactly
`startIndex..endIndex` (nothing for an empty range) and published nothing. -/
theorem bruteForceCrackPassword_scan (target : String) (length startIndex endIndex : Int)
    (fuel : Nat)
    (hrange : endIndex < startIndex ∨ (0 ≤ startIndex ∧ endIndex < maxInt))
    (hfuel : (endIndex + 1 - startIndex).toNat < fuel) :
    (∃ m, startIndex ≤ m ∧ m ≤ endIndex ∧ generatePassword m length = some target ∧
        (∀ j, startIndex ≤ j → j < m → generatePassword j length ≠ some target) ∧
        bruteForceCrackPassword neverDone target length startIndex endIndex fuel =
          Outcome.returned (intRange startIndex m) (some target)) ∨
      ((∀ j, startIndex ≤ j → j ≤ endIndex → generatePassword j length ≠ some target) ∧
        bruteForceCrackPassword neverDone target length startIndex endIndex fuel =
          Outcome.returned (intRange startIndex endIndex) none) := by
  unfold bruteForceCrackPassword
  rcases hrange with hempty | ⟨h0, he⟩
  · right
    refine ⟨fun j h1 h2 => by omega, ?_⟩
    cases fuel with
    | zero => omega
    | succ fuel =>
      rw [bruteForceLoop, if_neg (by omega), intRange_empty _ _ hempty]
  · exact bruteForceLoop_scan target length endIndex he fuel 0 startIndex (Or.inr h0) hfuel

/-- C4 (amended) on the whole one-symbol space with target "c". -/
theorem bruteForceCrackPassword_scan_witness :
    (∃ m, (0 : Int) ≤ m ∧ m ≤ 93 ∧ generatePassword m 1 = some "c" ∧
        (∀ j, (0 : Int) ≤ j → j < m → generatePassword j 1 ≠ some "c") ∧
        bruteForceCrackPassword neverDone "c" 1 0 93 95 =
          Outcome.returned (intRange 0 m) (some "c")) ∨
      ((∀ j, (0 : Int) ≤ j → j ≤ 93 → generatePassword j 1 ≠ some "c") ∧
        bruteForceCrackPassword neverDone "c" 1 0 93 95 =
          Outcome.returned (intRange 0 93) none) :=
  bruteForceCrackPassword_scan "c" 1 0 93 95 (Or.inr ⟨by decide, by decide⟩) (by decide)

/-! ## Facts about the ranges of `measureCrackTime` -/

/-- The two components of a worker's range, with the floor quotient as `rangeSize`. -/
theorem workerRange_eq (T W i : Int) (hT : 0 ≤ T) (hW : 1 ≤ W) :
    workerRange T W i =
      (i * (T / W), if i = W - 1 then T - 1 else i * (T / W) + T / W - 1) := by
  unfold workerRange
  rw [Int.tdiv_eq_ediv hT (by omega)]
  by_cases h : i = W - 1
  · simp only [if_pos h]
  · simp only [if_neg h]

/-- The floor quotient `q` of `T` by `W` satisfies `0 ≤ q` and `W * q ≤ T < W * q + W`. -/
theorem rangeSize_bounds (T W : Int) (hT : 0 ≤ T) (hW : 1 ≤ W) :
    0 ≤ T / W ∧ W * (T / W) ≤ T ∧ T < W * (T / W) + W :=
  ⟨Int.ediv_nonneg hT (by omega), Int.mul_ediv_self_le (by omega),
    Int.lt_mul_ediv_self_add (by omega)⟩

theorem mul_mono (q a b : Int) (hq : 0 ≤ q) (h : a ≤ b) : a * q ≤ b * q :=
  Int.mul_le_mul_of_nonneg_right h hq

/-- Every range lies inside `[-1, T - 1]` and starts at a non-negative index. -/
theorem workerRange_bounds (T W i : Int) (hT : 0 ≤ T) (hW : 1 ≤ W) (h0 : 0 ≤ i) (h1 : i < W) :
    0 ≤ (workerRange T W i).1 ∧ (workerRange T W i).1 ≤ T ∧
      -1 ≤ (workerRange T W i).2 ∧ (workerRange T W i).2 ≤ T - 1 := by
  obtain ⟨hq, hlo, -⟩ := rangeSize_bounds T W hT hW
  rw [workerRange_eq T W i hT hW]
  have hs : 0 ≤ i * (T / W) := mul_nonneg h0 hq
  have hiW : i * (T / W) ≤ W * (T / W) := mul_mono _ _ _ hq (by omega)
  by_cases h : i = W - 1
  · simp only [if_pos h]
    omega
  · simp only [if_neg h]
    have := mul_mono (T / W) (i + 1) W hq (by omega)
    rw [add_mul, one_mul] at this
    omega

/-- A range ends before every later range starts. -/
theorem workerRange_lt (T W i j : Int) (hT : 0 ≤ T) (hW : 1 ≤ W) (hij : i < j) (hj : j < W) :
    (workerRange T W i).2 < (workerRange T W j).1 := by
  obtain ⟨hq, -, -⟩ := rangeSize_bounds T W hT hW
  rw [workerRange_eq T W i hT hW, workerRange_eq T W j hT hW]
  simp only [if_neg (show i ≠ W - 1 by omega)]
  have := mul_mono (T / W) (i + 1) j hq (by omega)
  rw [add_mul, one_mul] at this
  omega

/-- Two different workers share no index. -/
theorem workerRange_disjoint (T W i j x : Int) (hT : 0 ≤ T) (hW : 1 ≤ W)
    (hi : i < W) (hj : j < W) (hx : inRange (workerRange T W i) x)
    (hy : inRange (workerRange T W j) x) : i = j := by
  unfold inRange at hx hy
  rcases lt_trichotomy i j with h | h | h
  · have := workerRange_lt T W i j hT hW h hj
    omega
  · exact h
  · have := workerRange_lt T W j i hT hW h hi
    omega

/-- Every index of `[0, T)` lies in the range of some worker. -/
theorem workerRange_cover (T W x : Int) (hT : 0 ≤ T) (hW : 1 ≤ W) (h0 : 0 ≤ x) (h1 : x < T) :
    ∃ i : Nat, (i : Int) < W ∧ inRange (workerRange T W i) x := by
  obtain ⟨hq, -, -⟩ := rangeSize_bounds T W hT hW
  by_cases hk : 1 ≤ T / W ∧ x / (T / W) < W - 1
  · obtain ⟨hq1, hk⟩ := hk
    have hk0 : 0 ≤ x / (T / W) := Int.ediv_nonneg h0 hq
    have hlo : T / W * (x / (T / W)) ≤ x := Int.mul_ediv_self_le (by omega)
    have hhi : x < T / W * (x / (T / W)) + T / W := Int.lt_mul_ediv_self_add (by omega)
    refine ⟨(x / (T / W)).toNat, by omega, ?_⟩
    have hc : ((x / (T / W)).toNat : Int) = x / (T / W) := Int.toNat_of_nonneg hk0
    rw [hc]
    unfold inRange
    rw [workerRange_eq T W _ hT hW]
    simp only [if_neg (show x / (T / W) ≠ W - 1 by omega)]
    rw [mul_comm] at hlo hhi
    omega
  · refine ⟨(W - 1).toNat, by omega, ?_⟩
    have hc : ((W - 1).toNat : Int) = W - 1 := Int.toNat_of_nonneg (by omega)
    rw [hc]
    unfold inRange
    rw [workerRange_eq T W _ hT hW]
    simp only [if_true]
    refine ⟨?_, by omega⟩
    by_cases hq1 : 1 ≤ T / W
    · have hk2 : W - 1 ≤ x / (T / W) := by
        by_contra hcon
        exact hk ⟨hq1, by omega⟩
      have hlo : T / W * (x / (T / W)) ≤ x := Int.mul_ediv_self_le (by omega)
      have := mul_mono (T / W) (W - 1) (x / (T / W)) hq hk2
      rw [mul_comm] at hlo
      omega
    · have hz : T / W = 0 := by omega
      rw [hz]
      omega

/-- The dispatch loop launches `workerCount` goroutines, the `i`-th with `workerRange i`. -/
theorem dispatch_length (T W : Int) : (dispatch T W).length = W.toNat := by
  simp [dispatch]

theorem dispatch_getElem? (T W : Int) (i : Nat) (h : (i : Int) < W) :
    (dispatch T W)[i]? = some (workerRange T W i) := by
  unfold dispatch
  rw [List.getElem?_map, List.getElem?_range (by omega)]
  rfl

/-- An empty range is left at once: the worker returns without decoding anything. -/
theorem bruteForceCrackPassword_empty (ctxDone : Nat → Bool) (target : String)
    (length startIndex endIndex : Int) (fuel : Nat) (h : endIndex < startIndex) :
    bruteForceCrackPassword ctxDone target length startIndex endIndex (fuel + 1) =
      Outcome.returned [] none := by
  unfold bruteForceCrackPassword
  rw [bruteForceLoop, if_neg (by omega)]

/-! ## The partition: claims C2, C8, C9 -/

/-- C2: for every totalSize >= 1 and 1 <= workerCount <= totalSize, the inclusive ranges
computed for workers `0..workerCount-1` (the ranges of the launched goroutines) are
non-empty, contiguous in worker order from 0 to `totalSize - 1`, pairwise disjoint,
and their union is exactly `[0, totalSize)`. -/
theorem partition_coverage (totalSize workerCount : Int) (hT : 1 ≤ totalSize)
    (hW : 1 ≤ workerCount) (hWT : workerCount ≤ totalSize) :
    ((dispatch totalSize workerCount).length = workerCount.toNat ∧
      ∀ i : Nat, (i : Int) < workerCount →
        (dispatch totalSize workerCount)[i]? = some (workerRange totalSize workerCount i)) ∧
    (∀ i : Nat, (i : Int) < workerCount →
      (workerRange totalSize workerCount i).1 ≤ (workerRange totalSize workerCount i).2) ∧
    ((workerRange totalSize workerCount 0).1 = 0 ∧
      (∀ i : Nat, (i : Int) + 1 < workerCount →
        (workerRange totalSize workerCount ((i : Int) + 1)).1 =
          (workerRange totalSize workerCount i).2 + 1) ∧
      (workerRange totalSize workerCount (workerCount - 1)).2 = totalSize - 1) ∧
    (∀ i j : Nat, (i : Int) < workerCount → (j : Int) < workerCount → i ≠ j →
      ∀ x, ¬ (inRange (workerRange totalSize workerCount i) x ∧
        inRange (workerRange totalSize workerCount j) x)) ∧
    (∀ x, (∃ i : Nat, (i : Int) < workerCount ∧
        inRange (workerRange totalSize workerCount i) x) ↔ (0 ≤ x ∧ x < totalSize)) := by
  have hT0 : 0 ≤ totalSize := by omega
  obtain ⟨hq, hlo, -⟩ := rangeSize_bounds totalSize workerCount hT0 hW
  have hq1 : 1 ≤ totalSize / workerCount :=
    (Int.le_ediv_iff_mul_le (by omega)).mpr (by omega)
  refine ⟨⟨dispatch_length _ _, fun i hi => dispatch_getElem? _ _ i hi⟩, ?_, ⟨?_, ?_, ?_⟩,
    ?_, ?_⟩
  · intro i hi
    rw [workerRange_eq _ _ _ hT0 hW]
    by_cases h : (i : Int) = workerCount - 1
    · simp only [if_pos h]
      rw [h]
      have : (workerCount - 1) * (totalSize / workerCount) =
          workerCount * (totalSize / workerCount) - totalSize / workerCount := by ring
      omega
    · simp only [if_neg h]
      omega
  · rw [workerRange_eq _ _ _ hT0 hW]
    simp
  · intro i hi
    rw [workerRange_eq _ _ _ hT0 hW, workerRange_eq _ _ _ hT0 hW]
    simp only [if_neg (show (i : Int) ≠ workerCount - 1 by omega)]
    ring
  · rw [workerRange_eq _ _ _ hT0 hW]
    simp
  · intro i j hi hj hij x hx
    have := workerRange_disjoint totalSize workerCount i j x hT0 hW hi hj hx.1 hx.2
    exact hij (by exact_mod_cast this)
  · intro x
    constructor
    · rintro ⟨i, hi, hx⟩
      have := workerRange_bounds totalSize workerCount i hT0 hW (by omega) hi
      unfold inRange at hx
      omega
    · rintro ⟨h0, h1⟩
      exact workerRange_cover totalSize workerCount x hT0 hW h0 h1

/-- C2 at the shipped length 2: `94 ^ 2 = 8836` candidates over 1000 workers. -/
theorem partition_coverage_witness :
    ((dispatch 8836 1000).length = (1000 : Int).toNat ∧
      ∀ i : Nat, (i : Int) < 1000 →
        (dispatch 8836 1000)[i]? = some (workerRange 8836 1000 i)) ∧
    (∀ i : Nat, (i : Int) < 1000 →
      (workerRange 8836 1000 i).1 ≤ (workerRange 8836 1000 i).2) ∧
    ((workerRange 8836 1000 0).1 = 0 ∧
      (∀ i : Nat, (i : Int) + 1 < 1000 →
        (workerRange 8836 1000 ((i : Int) + 1)).1 = (workerRange 8836 1000 i).2 + 1) ∧
      (workerRange 8836 1000 (1000 - 1)).2 = 8836 - 1) ∧
    (∀ i j : Nat, (i : Int) < 1000 → (j : Int) < 1000 → i ≠ j →
      ∀ x, ¬ (inRange (workerRange 8836 1000 i) x ∧ inRange (workerRange 8836 1000 j) x)) ∧
    (∀ x, (∃ i : Nat, (i : Int) < 1000 ∧ inRange (workerRange 8836 1000 i) x) ↔
      (0 ≤ x ∧ x < 8836)) :=
  partition_coverage 8836 1000 (by decide) (by decide) (by decide)

/-- C8: for every totalSize >= 0 and workerCount >= 1 (in particular for
totalSize >= workerCount >= 1), the code's `rangeSize` is the floor quotient
`nominal = totalSize / workerCount`; worker `i < workerCount - 1` gets exactly
`[i*nominal, (i+1)*nominal - 1]`, which has `nominal` indices; the last worker gets
`[(workerCount-1)*nominal, totalSize - 1]`, which has `nominal + totalSize mod workerCount`
indices; and for totalSize 16 and workerCount 4 the ranges are [0,3],[4,7],[8,11],[12,15]. -/
theorem range_shape (totalSize workerCount : Int) (hT : 0 ≤ totalSize) (hW : 1 ≤ workerCount) :
    Int.tdiv totalSize workerCount = totalSize / workerCount ∧
    (∀ i : Nat, (i : Int) < workerCount - 1 →
      workerRange totalSize workerCount i =
        ((i : Int) * (totalSize / workerCount),
          ((i : Int) + 1) * (totalSize / workerCount) - 1) ∧
      (workerRange totalSize workerCount i).2 - (workerRange totalSize workerCount i).1 + 1 =
        totalSize / workerCount) ∧
    (workerRange totalSize workerCount (workerCount - 1) =
        ((workerCount - 1) * (totalSize / workerCount), totalSize - 1) ∧
      (workerRange totalSize workerCount (workerCount - 1)).2 -
          (workerRange totalSize workerCount (workerCount - 1)).1 + 1 =
        totalSize / workerCount + totalSize % workerCount) ∧
    dispatch 16 4 = [(0, 3), (4, 7), (8, 11), (12, 15)] := by
  refine ⟨Int.tdiv_eq_ediv hT (by omega), ?_, ?_, by decide⟩
  · intro i hi
    rw [workerRange_eq _ _ _ hT hW]
    simp only [if_neg (show (i : Int) ≠ workerCount - 1 by omega)]
    refine ⟨?_, by ring⟩
    congr 1
    ring
  · rw [workerRange_eq _ _ _ hT hW]
    simp only [if_true]
    refine ⟨trivial, ?_⟩
    rw [Int.emod_def]
    ring

/-- C8 at totalSize 16 and workerCount 4. -/
theorem range_shape_witness :
    Int.tdiv 16 4 = (16 : Int) / 4 ∧
    (∀ i : Nat, (i : Int) < 4 - 1 →
      workerRange 16 4 i = ((i : Int) * (16 / 4), ((i : Int) + 1) * (16 / 4) - 1) ∧
      (workerRange 16 4 i).2 - (workerRange 16 4 i).1 + 1 = 16 / 4) ∧
    (workerRange 16 4 (4 - 1) = ((4 - 1) * (16 / 4), 16 - 1) ∧
      (workerRange 16 4 (4 - 1)).2 - (workerRange 16 4 (4 - 1)).1 + 1 = 16 / 4 + 16 % 4) ∧
    dispatch 16 4 = [(0, 3), (4, 7), (8, 11), (12, 15)] :=
  range_shape 16 4 (by decide) (by decide)

/-- C9: for every totalSize >= 1 (a Go `int`, so at most `MaxInt64`) and every
workerCount > totalSize, `rangeSize` is 0; each of the first `workerCount - 1` workers
gets the empty range `[0, -1]` and returns without decoding any index; the last
worker gets `[0, totalSize - 1]`; whatever the target, the cancellation and the step
budget, every index a worker decodes lies in `[0, totalSize)`; every index of
`[0, totalSize)` belongs to the range of exactly one worker; and the last worker,
never cancelled and finding no match, decodes exactly `0 .. totalSize - 1`. -/
theorem partition_more_workers (totalSize workerCount : Int) (hT : 1 ≤ totalSize)
    (hmax : totalSize ≤ maxInt) (hW : totalSize < workerCount) :
    Int.tdiv totalSize workerCount = 0 ∧
    (∀ i : Nat, (i : Int) < workerCount - 1 →
      workerRange totalSize workerCount i = (0, -1) ∧
      ∀ (ctxDone : Nat → Bool) (target : String) (length : Int) (fuel : Nat),
        bruteForceCrackPassword ctxDone target length 0 (-1) (fuel + 1) =
          Outcome.returned [] none) ∧
    workerRange totalSize workerCount (workerCount - 1) = (0, totalSize - 1) ∧
    (∀ i : Nat, (i : Int) < workerCount →
      ∀ (ctxDone : Nat → Bool) (target : String) (length : Int) (fuel : Nat),
        ∀ j ∈ (bruteForceCrackPassword ctxDone target length
            (workerRange totalSize workerCount i).1
            (workerRange totalSize workerCount i).2 fuel).visited,
          0 ≤ j ∧ j < totalSize) ∧
    (∀ x, 0 ≤ x → x < totalSize →
      ∃! i : Nat, (i : Int) < workerCount ∧ inRange (workerRange totalSize workerCount i) x) ∧
    (∀ (target : String) (length : Int) (fuel : Nat), totalSize.toNat < fuel →
      (∀ j, 0 ≤ j → j < totalSize → generatePassword j length ≠ some target) →
      bruteForceCrackPassword neverDone target length 0 (totalSize - 1) fuel =
        Outcome.returned (intRange 0 (totalSize - 1)) none) := by
  have hT0 : 0 ≤ totalSize := by omega
  have hW1 : 1 ≤ workerCount := by omega
  have hz : totalSize / workerCount = 0 := Int.ediv_eq_zero_of_lt hT0 hW
  refine ⟨by rw [Int.tdiv_eq_ediv hT0 (by omega), hz], ?_, ?_, ?_, ?_, ?_⟩
  · intro i hi
    refine ⟨?_, fun ctxDone target length fuel =>
      bruteForceCrackPassword_empty ctxDone target length 0 (-1) fuel (by omega)⟩
    rw [workerRange_eq _ _ _ hT0 hW1, hz]
    simp only [if_neg (show (i : Int) ≠ workerCount - 1 by omega)]
    simp
  · rw [workerRange_eq _ _ _ hT0 hW1, hz]
    simp
  · intro i hi ctxDone target length fuel j hj
    have hb := workerRange_bounds totalSize workerCount i hT0 hW1 (by omega) hi
    have := (bruteForceLoop_sound ctxDone target length
      (workerRange totalSize workerCount i).2 (by omega) fuel 0
      (workerRange totalSize workerCount i).1 (by unfold minInt; omega)).1 j hj
    omega
  · intro x h0 h1
    obtain ⟨i, hi, hx⟩ := workerRange_cover totalSize workerCount x hT0 hW1 h0 h1
    refine ⟨i, ⟨hi, hx⟩, ?_⟩
    rintro k ⟨hk, hkx⟩
    have := workerRange_disjoint totalSize workerCount k i x hT0 hW1 hk hi hkx hx
    exact_mod_cast this
  · intro target length fuel hfuel hnone
    unfold bruteForceCrackPassword
    rcases bruteForceLoop_scan target length (totalSize - 1) (by omega) fuel 0 0
        (Or.inr (le_refl _)) (by omega) with ⟨m, hm1, hm2, hm3, -, -⟩ | ⟨-, hrun⟩
    · exact absurd hm3 (hnone m hm1 (by omega))
    · exact hrun

/-- C9 at the shipped length 1: 94 candidates, 1000 workers. -/
theorem partition_more_workers_witness :
    Int.tdiv 94 1000 = 0 ∧
    (∀ i : Nat, (i : Int) < 1000 - 1 →
      workerRange 94 1000 i = (0, -1) ∧
      ∀ (ctxDone : Nat → Bool) (target : String) (length : Int) (fuel : Nat),
        bruteForceCrackPassword ctxDone target length 0 (-1) (fuel + 1) =
          Outcome.returned [] none) ∧
    workerRange 94 1000 (1000 - 1) = (0, 94 - 1) ∧
    (∀ i : Nat, (i : Int) < 1000 →
      ∀ (ctxDone : Nat → Bool) (target : String) (length : Int) (fuel : Nat),
        ∀ j ∈ (bruteForceCrackPassword ctxDone target length
            (workerRange 94 1000 i).1 (workerRange 94 1000 i).2 fuel).visited,
          0 ≤ j ∧ j < 94) ∧
    (∀ x, 0 ≤ x → x < 94 →
      ∃! i : Nat, (i : Int) < 1000 ∧ inRange (workerRange 94 1000 i) x) ∧
    (∀ (target : String) (length : Int) (fuel : Nat), (94 : Int).toNat < fuel →
      (∀ j, 0 ≤ j → j < 94 → generatePassword j length ≠ some target) →
      bruteForceCrackPassword neverDone target length 0 (94 - 1) fuel =
        Outcome.returned (intRange 0 (94 - 1)) none) :=
  partition_more_workers 94 1000 (by decide) (by decide) (by decide)

/-! ## One match per trial: claim C3 -/

/-- Go's `%` on a negative dividend is not positive. -/
theorem tmod_nonpos (a : Int) (h : a < 0) : Int.tmod a 94 ≤ 0 := by
  cases a with
  | ofNat n => exact absurd h (by simp)
  | negSucc n =>
    show -(((n + 1) % 94 : Nat) : Int) ≤ 0
    omega

/-- What `generateRandomPassword` returns has `length` symbols, all from `charset`. -/
theorem generateRandomPasswordLoop_mem (rand : Nat → Int) (n : Nat) :
    ∀ (k : Nat) (l : List Char), generateRandomPasswordLoop rand n k = some l →
      l.length = n ∧ ∀ c ∈ l, c ∈ charset.data := by
  induction n with
  | zero =>
    intro k l h
    rw [generateRandomPasswordLoop] at h
    cases h
    simp
  | succ n ih =>
    intro k l h
    rw [generateRandomPasswordLoop] at h
    cases hc : charsetAt (rand k) with
    | none => rw [hc] at h; cases h
    | some c =>
      rw [hc] at h
      cases hr : generateRandomPasswordLoop rand n (k + 1) with
      | none => rw [hr] at h; cases h
      | some rest =>
        rw [hr] at h
        cases h
        obtain ⟨hl, hm⟩ := ih _ _ hr
        refine ⟨by simp [hl], ?_⟩
        intro d hd
        rcases List.mem_cons.mp hd with rfl | hd
        · exact (charsetAt_some _ _ hc).2.2.1
        · exact hm d hd

/-- With draws in `[0, 94)`, as `rand.Intn(len(charset))` returns them,
`generateRandomPassword` never panics. -/
theorem generateRandomPasswordLoop_some (rand : Nat → Int)
    (hrand : ∀ k, 0 ≤ rand k ∧ rand k < 94) (n : Nat) :
    ∀ k : Nat, ∃ l, generateRandomPasswordLoop rand n k = some l := by
  induction n with
  | zero => intro k; exact ⟨[], rfl⟩
  | succ n ih =>
    intro k
    obtain ⟨c, hc, -, -⟩ := charsetAt_of_lt (rand k) (hrand k).1 (hrand k).2
    obtain ⟨rest, hrest⟩ := ih (k + 1)
    refine ⟨c :: rest, ?_⟩
    rw [generateRandomPasswordLoop, hc, hrest]

/-- The target drawn by `measureCrackTime` is a string of exactly `length` symbols of
`charset`: what the one-match property is stated for. -/
theorem generateRandomPassword_target (rand : Nat → Int)
    (hrand : ∀ k, 0 ≤ rand k ∧ rand k < 94) (length : Int) (hl : 0 ≤ length) :
    ∃ target : String, generateRandomPassword rand length = some target ∧
      (target.data.length : Int) = length ∧ ∀ c ∈ target.data, c ∈ charset.data := by
  obtain ⟨l, hloop⟩ := generateRandomPasswordLoop_some rand hrand length.toNat 0
  obtain ⟨hlen, hmem⟩ := generateRandomPasswordLoop_mem rand length.toNat 0 l hloop
  refine ⟨String.mk l, by unfold generateRandomPassword; rw [hloop]; rfl, ?_, hmem⟩
  show (l.length : Int) = length
  omega

/-- The space size of the lengths whose power fits Go's `int`. -/
theorem totalCombinations_le (length : Int) (h0 : 0 ≤ length) (h9 : length ≤ 9) :
    totalCombinations length = 94 ^ length.toNat ∧ 1 ≤ totalCombinations length ∧
      totalCombinations length < maxInt := by
  unfold totalCombinations
  rw [if_neg (by omega), base_eq]
  have hn : length.toNat ≤ 9 := by omega
  have h1 : (94 : Int) ^ length.toNat ≤ 94 ^ 9 := pow_le_pow_right₀ (by norm_num) hn
  have h2 : (0 : Int) < 94 ^ length.toNat := pow_pos (by norm_num) _
  refine ⟨rfl, by omega, ?_⟩
  have h3 : (94 : Int) ^ 9 < maxInt := by decide
  omega

/-- The string of ten `~` is decoded from no `int` index at all. -/
theorem generatePassword_tildes (index : Int) (hmax : index ≤ maxInt) :
    generatePassword index 10 ≠ some "~~~~~~~~~~" := by
  intro h
  have hloop := generatePassword_eq_some _ _ _ h
  have hpos : symbolPos '~' = 93 := by decide
  by_cases hneg : index < 0
  · have h10 : (10 : Int).toNat = 9 + 1 := by decide
    rw [h10, generatePasswordLoop] at hloop
    cases hc : charsetAt (Int.tmod index base) with
    | none => rw [hc] at hloop; cases hloop
    | some c =>
      rw [hc] at hloop
      cases hr : generatePasswordLoop 9 (Int.tdiv index base) with
      | none => rw [hr] at hloop; cases hloop
      | some rest =>
        rw [hr] at hloop
        have hc2 : c = '~' := by
          have := congrArg (fun o => o.bind List.head?) hloop
          simpa using this
        obtain ⟨h0, -, -, hp⟩ := charsetAt_some _ _ hc
        rw [hc2, hpos] at hp
        have := tmod_nonpos index hneg
        rw [base_eq] at hp
        omega
  · obtain ⟨l, hl, -, hdig⟩ := generatePasswordLoop_digits (10 : Int).toNat index (by omega)
    rw [hl] at hloop
    have hl2 : l = "~~~~~~~~~~".data := Option.some.inj hloop
    have h9 := (hdig 9 (by decide)).1
    rw [hl2] at h9
    have h9c : ("~~~~~~~~~~".data)[9]? = some '~' := by decide
    rw [h9c] at h9
    obtain ⟨-, -, -, hp⟩ := charsetAt_some _ _ h9.symm
    rw [hpos] at hp
    unfold maxInt at hmax
    norm_num at hp hmax
    omega

/-- C3 as stated fails for length 10: the target of ten `~` has ten symbols of
`charset`, but `94 ^ 10` exceeds Go's 64-bit `int`, and no `int` index at all (so no
index of any worker range) is decoded to it by `generatePassword`. -/
theorem unique_match_counterexample :
    ("~~~~~~~~~~".data.length = 10 ∧ ∀ c ∈ "~~~~~~~~~~".data, c ∈ charset.data) ∧
      maxInt < base ^ 10 ∧
      ¬ ∃ index : Int, minInt ≤ index ∧ index ≤ maxInt ∧
        generatePassword index 10 = some "~~~~~~~~~~" := by
  refine ⟨⟨by decide, by decide⟩, by decide, ?_⟩
  rintro ⟨index, -, hmax, h⟩
  exact generatePassword_tildes index hmax h

/-- C3 (amended): for every length L <= 9 (the lengths for which `94 ^ L` fits Go's
`int`; in particular 1 <= L <= 9) and every target of exactly L symbols drawn from
`charset`, there is exactly one index in `[0, 94^L)` that `generatePassword` decodes to
the target; over the ranges of the 1000 workers for `totalCombinations = 94^L` exactly
one (worker, index) pair matches; and whatever the cancellation and step budgets, two
workers that publish are the same worker. -/
theorem unique_match (length : Int) (target : String) (hl9 : length ≤ 9)
    (hlen : (target.data.length : Int) = length)
    (hmem : ∀ c ∈ target.data, c ∈ charset.data) :
    (∃! index : Int, 0 ≤ index ∧ index < base ^ length.toNat ∧
      generatePassword index length = some target) ∧
    totalCombinations length = base ^ length.toNat ∧
    (∃! p : Nat × Int, (p.1 : Int) < workerCount ∧
      inRange (workerRange (totalCombinations length) workerCount p.1) p.2 ∧
      generatePassword p.2 length = some target) ∧
    (∀ (w1 w2 : Nat) (ctx1 ctx2 : Nat → Bool) (fuel1 fuel2 : Nat),
      (w1 : Int) < workerCount → (w2 : Int) < workerCount →
      (bruteForceCrackPassword ctx1 target length
        (workerRange (totalCombinations length) workerCount w1).1
        (workerRange (totalCombinations length) workerCount w1).2 fuel1).published ≠ none →
      (bruteForceCrackPassword ctx2 target length
        (workerRange (totalCombinations length) workerCount w2).1
        (workerRange (totalCombinations length) workerCount w2).2 fuel2).published ≠ none →
      w1 = w2) := by
  have hn : length.toNat = target.data.length := by omega
  obtain ⟨hTeq, hT1, hTmax⟩ := totalCombinations_le length (by omega) hl9
  have hT0 : 0 ≤ totalCombinations length := by omega
  have hW : (1 : Int) ≤ workerCount := by decide
  obtain ⟨e0, e1, eg⟩ := generatePasswordLoop_reencode target.data hmem
  have hdec : generatePassword (reencodeFrom 0 target.data) length = some target := by
    unfold generatePassword
    rw [hn, eg]
    rfl
  -- any matching index of the space is the re-encoding of the target
  have huniq : ∀ index : Int, 0 ≤ index → index < 94 ^ length.toNat →
      generatePassword index length = some target → index = reencodeFrom 0 target.data := by
    intro index h0 h1 h
    exact (generatePasswordLoop_roundtrip length.toNat index h0 h1 _
      (generatePassword_eq_some _ _ _ h)).symm
  -- any matching pair sits at that index
  have hpair : ∀ (w : Nat) (j : Int), (w : Int) < workerCount →
      inRange (workerRange (totalCombinations length) workerCount w) j →
      generatePassword j length = some target → j = reencodeFrom 0 target.data := by
    intro w j hw hj hg
    have hb := workerRange_bounds (totalCombinations length) workerCount w hT0 hW (by omega) hw
    unfold inRange at hj
    exact huniq j (by omega) (by rw [← hTeq]; omega) hg
  obtain ⟨w0, hw0, hx0⟩ := workerRange_cover (totalCombinations length) workerCount
    (reencodeFrom 0 target.data) hT0 hW e0 (by rw [hTeq, hn]; exact e1)
  have hworker : ∀ (w : Nat) (j : Int), (w : Int) < workerCount →
      inRange (workerRange (totalCombinations length) workerCount w) j →
      generatePassword j length = some target → w = w0 := by
    intro w j hw hj hg
    have hje := hpair w j hw hj hg
    rw [hje] at hj
    have := workerRange_disjoint (totalCombinations length) workerCount w w0 _ hT0 hW hw hw0
      hj hx0
    exact_mod_cast this
  have hsend : ∀ (w : Nat) (ctx : Nat → Bool) (fuel : Nat), (w : Int) < workerCount →
      (bruteForceCrackPassword ctx target length
        (workerRange (totalCombinations length) workerCount w).1
        (workerRange (totalCombinations length) workerCount w).2 fuel).published ≠ none →
      w = w0 := by
    intro w ctx fuel hw hpub
    have hb := workerRange_bounds (totalCombinations length) workerCount w hT0 hW (by omega) hw
    obtain ⟨p, hp⟩ := Option.ne_none_iff_exists'.mp hpub
    obtain ⟨-, j, hj1, hj2, hj3⟩ := (bruteForceLoop_sound ctx target length
      (workerRange (totalCombinations length) workerCount w).2 (by omega) fuel 0
      (workerRange (totalCombinations length) workerCount w).1
      (by unfold minInt; omega)).2 p hp
    exact hworker w j hw ⟨hj1, hj2⟩ hj3
  refine ⟨⟨reencodeFrom 0 target.data, ⟨e0, by rw [base_eq, hn]; exact e1, hdec⟩, ?_⟩,
    by rw [hTeq, base_eq], ⟨(w0, reencodeFrom 0 target.data), ⟨hw0, hx0, hdec⟩, ?_⟩, ?_⟩
  · rintro index ⟨h0, h1, h⟩
    rw [base_eq] at h1
    exact huniq index h0 h1 h
  · rintro ⟨w, j⟩ ⟨hw, hj, hg⟩
    rw [hworker w j hw hj hg, hpair w j hw hj hg]
  · intro w1 w2 ctx1 ctx2 fuel1 fuel2 hw1 hw2 hp1 hp2
    rw [hsend w1 ctx1 fuel1 hw1 hp1, hsend w2 ctx2 fuel2 hw2 hp2]

/-- C3 (amended) at length 2 and target "ab". -/
theorem unique_match_witness :
    (∃! index : Int, 0 ≤ index ∧ index < base ^ (2 : Int).toNat ∧
      generatePassword index 2 = some "ab") ∧
    totalCombinations 2 = base ^ (2 : Int).toNat ∧
    (∃! p : Nat × Int, (p.1 : Int) < workerCount ∧
      inRange (workerRange (totalCombinations 2) workerCount p.1) p.2 ∧
      generatePassword p.2 2 = some "ab") ∧
    (∀ (w1 w2 : Nat) (ctx1 ctx2 : Nat → Bool) (fuel1 fuel2 : Nat),
      (w1 : Int) < workerCount → (w2 : Int) < workerCount →
      (bruteForceCrackPassword ctx1 "ab" 2
        (workerRange (totalCombinations 2) workerCount w1).1
        (workerRange (totalCombinations 2) workerCount w1).2 fuel1).published ≠ none →
      (bruteForceCrackPassword ctx2 "ab" 2
        (workerRange (totalCombinations 2) workerCount w2).1
        (workerRange (totalCombinations 2) workerCount w2).2 fuel2).published ≠ none →
      w1 = w2) :=
  unique_match 2 "ab" (by decide) (by decide) (by decide)

/-! ## The coordinator: claims C6 and C5 -/

theorem spawnCount_spawns (l : List (Int × Int)) (rest : List Step) :
    spawnCount (l.map (fun r => Step.spawn r.1 r.2) ++ rest) = l.length + spawnCount rest := by
  induction l with
  | nil => simp
  | cons r l ih =>
    rw [List.map_cons, List.cons_append, List.length_cons]
    show spawnCount (l.map (fun r => Step.spawn r.1 r.2) ++ rest) + 1 = _
    rw [ih]
    omega

theorem cancelsBeforeWait_spawns (l : List (Int × Int)) (rest : List Step) :
    cancelsBeforeWait (l.map (fun r => Step.spawn r.1 r.2) ++ rest) = cancelsBeforeWait rest := by
  induction l with
  | nil => simp
  | cons r l ih =>
    rw [List.map_cons, List.cons_append]
    show cancelsBeforeWait (l.map (fun r => Step.spawn r.1 r.2) ++ rest) = _
    exact ih

/-- Whatever the space size, the coordinator launches `workerCount` goroutines. -/
theorem spawnCount_coordinate (T W : Int) (await : Await) :
    spawnCount (coordinate T W await).1 = W.toNat := by
  cases await <;>
    simp [coordinate, spawnCount_spawns, spawnCount, dispatch_length]

/-- The first `workerCount` actions of the coordinator launch the workers, in order. -/
theorem coordinate_getElem? (T W : Int) (await : Await) (i : Nat) (h : (i : Int) < W) :
    (coordinate T W await).1[i]? =
      some (Step.spawn (workerRange T W i).1 (workerRange T W i).2) := by
  have hlen : i < ((dispatch T W).map (fun r => Step.spawn r.1 r.2)).length := by
    rw [List.length_map, dispatch_length]; omega
  cases await <;>
    simp only [coordinate] <;>
    rw [List.getElem?_append_left hlen, List.getElem?_map, dispatch_getElem? T W i h] <;>
    rfl

/-- C6 as stated fails on the shipped length 1: the space has 94 candidates, fewer
than the 1000 workers, and `measureCrackTime` neither returns before dispatching nor
launches at most 94 workers: it launches 1000. -/
theorem worker_count_counterexample :
    totalCombinations 1 = 94 ∧ totalCombinations 1 < workerCount ∧
      ∀ await : Await,
        spawnCount (measureCrackTime 1 await).1 = 1000 ∧
        ¬ (spawnCount (measureCrackTime 1 await).1 = 0 ∨
          (spawnCount (measureCrackTime 1 await).1 : Int) ≤ totalCombinations 1) := by
  have hT : totalCombinations 1 = 94 := by decide
  refine ⟨hT, by decide, ?_⟩
  intro await
  have h : spawnCount (measureCrackTime 1 await).1 = 1000 := by
    unfold measureCrackTime
    rw [spawnCount_coordinate]
    decide
  rw [h, hT]
  exact ⟨rfl, by decide⟩

/-- C6 (amended): when workerCount is greater than totalSize >= 1 (length 1: 94
candidates, 1000 workers), `measureCrackTime` neither rejects the configuration nor
reduces the number of workers: whichever way the `select` goes, it launches exactly
`workerCount` workers, the `i`-th with the range computed by iteration `i`. -/
theorem measureCrackTime_launches_all (totalSize workerCount : Int) (await : Await)
    (hT : 1 ≤ totalSize) (hW : totalSize < workerCount) :
    (spawnCount (coordinate totalSize workerCount await).1 : Int) = workerCount ∧
    (totalSize : Int) < spawnCount (coordinate totalSize workerCount await).1 ∧
    ∀ i : Nat, (i : Int) < workerCount →
      (coordinate totalSize workerCount await).1[i]? =
        some (Step.spawn (workerRange totalSize workerCount i).1
          (workerRange totalSize workerCount i).2) := by
  have h := spawnCount_coordinate totalSize workerCount await
  refine ⟨by omega, by omega, fun i hi => coordinate_getElem? _ _ await i hi⟩

/-- C6 (amended) at the shipped length 1 on the timeout branch. -/
theorem measureCrackTime_launches_all_witness :
    (spawnCount (coordinate 94 1000 Await.timeout).1 : Int) = 1000 ∧
    (94 : Int) < spawnCount (coordinate 94 1000 Await.timeout).1 ∧
    ∀ i : Nat, (i : Int) < 1000 →
      (coordinate 94 1000 Await.timeout).1[i]? =
        some (Step.spawn (workerRange 94 1000 i).1 (workerRange 94 1000 i).2) :=
  measureCrackTime_launches_all 94 1000 Await.timeout (by decide) (by decide)

/-- C5 on the code: for every length, on the timeout branch `measureCrackTime` runs,
after the dispatch, `Println`, `wg.Wait()` and only then the deferred `cancel()`, so
no `cancel()` precedes `wg.Wait()`; on the branch that received a password one
`cancel()` precedes `wg.Wait()` and the deferred one follows it. -/
theorem teardown_timeout_waits_uncancelled (length : Int) :
    (measureCrackTime length Await.timeout).1 =
        (dispatch (totalCombinations length) workerCount).map
          (fun r => Step.spawn r.1 r.2) ++ [Step.printNotFound, Step.wait, Step.cancel] ∧
    cancelsBeforeWait (measureCrackTime length Await.timeout).1 = 0 ∧
    ∀ password : String,
      (measureCrackTime length (Await.received password)).1 =
          (dispatch (totalCombinations length) workerCount).map
            (fun r => Step.spawn r.1 r.2) ++ [Step.cancel, Step.wait, Step.cancel] ∧
      cancelsBeforeWait (measureCrackTime length (Await.received password)).1 = 1 := by
  refine ⟨rfl, ?_, fun password => ⟨rfl, ?_⟩⟩
  · show cancelsBeforeWait ((dispatch (totalCombinations length) workerCount).map
      (fun r => Step.spawn r.1 r.2) ++ [Step.printNotFound, Step.wait, Step.cancel]) = 0
    rw [cancelsBeforeWait_spawns]
    rfl
  · show cancelsBeforeWait ((dispatch (totalCombinations length) workerCount).map
      (fun r => Step.spawn r.1 r.2) ++ [Step.cancel, Step.wait, Step.cancel]) = 1
    rw [cancelsBeforeWait_spawns]
    rfl

end Crack
